import Mathlib

/-!
# Inventory ledger on a hash chain: a shallow embedding of `blockchain.go`

The Go program keeps one in-memory `Blockchain` value (a chain of blocks, a map
of per-user inventories and a map of per-user transaction logs) and mutates it
through `addInventoryItem` and `removeInventoryItem`.  The embedding below
passes that value explicitly.

Modelling conventions:

* Go `int` / `int64` values are `Int`; every arithmetic operation that Go
  performs on them is wrapped with `wrapInt64` (two's complement, 64 bits).
  `len(s) + 1` is left unwrapped: a slice of 32-byte items cannot have `2^63`
  elements.
* `time.Now().Unix()` is an explicit argument of every function that reads the
  clock.
* `sha256.Sum256` followed by `hex.EncodeToString` is the parameter
  `sha : String → String`; nothing is assumed about it unless a theorem says so.
* `strconv.Itoa` / `strconv.FormatInt(_, 10)` is `toString` on `Int` (decimal,
  a leading `-` for negative numbers).
* A Go map read with the two-result form is a function into `Option`; a `nil`
  map reads like an empty one.  The transaction map is additionally allowed to
  be `nil` (`none`), because `removeInventoryItem` writes to it without the
  nil check that `addInventoryItem` performs, and a write to a nil map is a
  run-time fault in Go.
* Console output is dropped, except that the message which decides the control
  flow of `removeInventoryItem` and `auditBlockchain` is returned as a value.
-/

namespace InventoryChain

/-! ## Machine integers -/

/-- Two's-complement reduction of an integer to the 64-bit range of a Go `int`. -/
def wrapInt64 (x : Int) : Int := (x + 2 ^ 63) % 2 ^ 64 - 2 ^ 63

/-- The values a Go `int` can hold. -/
def isInt64 (x : Int) : Prop := -(2 ^ 63) ≤ x ∧ x < 2 ^ 63

instance (x : Int) : Decidable (isInt64 x) := by
  unfold isInt64; exact inferInstance

/-! ## Data model -/

/-- Go `type InventoryItem struct`. -/
structure InventoryItem where
  ID : Int
  Name : String
  Quantity : Int
  deriving DecidableEq, Repr

/-- Go `type Block struct`. -/
structure Block where
  Index : Int
  Timestamp : Int
  PrevHash : String
  Data : String
  Nonce : Int
  Difficulty : Int
  Hash : String
  InventoryTransactions : List InventoryItem
  deriving DecidableEq, Repr

/-- Go `type Transaction struct`. -/
structure Transaction where
  Username : String
  Timestamp : Int
  Action : String
  Item : InventoryItem
  deriving DecidableEq, Repr

/-- Go `type Blockchain struct`.  `UserInventories u = none` means that the map has
no entry for `u`; `UserTransactions = none` is the nil map. -/
structure Blockchain where
  Chain : List Block
  UserInventories : String → Option (List InventoryItem)
  UserTransactions : Option (String → List Transaction)

/-- Reading `blockchain.UserTransactions[username]`: a nil map and a missing key
both give the empty slice. -/
def Blockchain.transactionsOf (bc : Blockchain) (username : String) : List Transaction :=
  match bc.UserTransactions with
  | none => []
  | some m => m username

/-- Reading `blockchain.UserInventories[username]` with the one-result form: a
missing key gives the empty slice. -/
def Blockchain.inventoryOf (bc : Blockchain) (username : String) : List InventoryItem :=
  (bc.UserInventories username).getD []

/-- Map assignment `m[key] = value`. -/
def mapSet {α : Type} (m : String → α) (key : String) (value : α) : String → α :=
  fun k => if k = key then value else m k

/-! ## Hashing and block construction -/

/-- The string `record` that `calculateHash` feeds to SHA-256. -/
def hashRecord (b : Block) : String :=
  toString b.Index ++ toString b.Timestamp ++ b.PrevHash ++ b.Data ++ toString b.Nonce

/-- Go `calculateHash`. -/
def calculateHash (sha : String → String) (b : Block) : String :=
  sha (hashRecord b)

/-- Go `createGenesisBlock`; `now` is the clock reading. -/
def createGenesisBlock (sha : String → String) (now : Int) (difficulty : Int) : Block :=
  let genesisBlock : Block :=
    { Index := 0, Timestamp := now, PrevHash := "0", Data := "Genesis Block", Nonce := 0,
      Difficulty := difficulty, Hash := "", InventoryTransactions := [] }
  { genesisBlock with Hash := calculateHash sha genesisBlock }

/-- Go `createNewBlock`; `now` is the clock reading. -/
def createNewBlock (sha : String → String) (now : Int) (previousBlock : Block) (data : String)
    (difficulty : Int) (inventoryTransactions : List InventoryItem) : Block :=
  let newBlock : Block :=
    { Index := wrapInt64 (previousBlock.Index + 1), Timestamp := now,
      PrevHash := previousBlock.Hash, Data := data, Nonce := 0, Difficulty := difficulty,
      Hash := "", InventoryTransactions := inventoryTransactions }
  { newBlock with Hash := calculateHash sha newBlock }

/-! ## Audit -/

/-- What `auditBlockchain` prints after its banner: either the success line or
one `Block %d is corrupted!` line carrying `currBlock.Index`. -/
inductive AuditResult where
  | passed
  | corrupted (index : Int)
  deriving DecidableEq, Repr

/-- The loop body of `auditBlockchain` from position `i` on, with
`prevBlock = Chain[i-1]` and the blocks `Chain[i:]` still to visit. -/
def auditFrom (sha : String → String) : Block → List Block → AuditResult
  | _, [] => AuditResult.passed
  | prevBlock, currBlock :: rest =>
    if currBlock.PrevHash ≠ calculateHash sha prevBlock then
      AuditResult.corrupted currBlock.Index
    else if currBlock.Hash ≠ calculateHash sha currBlock then
      AuditResult.corrupted currBlock.Index
    else auditFrom sha currBlock rest

/-- The loop of `auditBlockchain` over a chain (it starts at position 1). -/
def auditChain (sha : String → String) : List Block → AuditResult
  | [] => AuditResult.passed
  | first :: rest => auditFrom sha first rest

/-- Go `auditBlockchain`. -/
def auditBlockchain (sha : String → String) (blockchain : Blockchain) : AuditResult :=
  auditChain sha blockchain.Chain

/-! ## Inventory operations -/

/-- Go `addInventoryItem`; `now` is the clock reading for the transaction. -/
def addInventoryItem (now : Int) (blockchain : Blockchain) (username name : String)
    (quantity : Int) : Blockchain :=
  let userInventory := (blockchain.UserInventories username).getD []
  let newItem : InventoryItem :=
    { ID := (userInventory.length : Int) + 1, Name := name, Quantity := quantity }
  let userTransactions := blockchain.transactionsOf username
  let transaction : Transaction :=
    { Username := username, Timestamp := now, Action := "add", Item := newItem }
  let transactions := (blockchain.UserTransactions).getD (fun _ => [])
  { Chain := blockchain.Chain
    UserInventories := mapSet blockchain.UserInventories username (some (userInventory ++ [newItem]))
    UserTransactions := some (mapSet transactions username (userTransactions ++ [transaction])) }

/-- The search loop of `removeInventoryItem`: position and value of the first
item whose `ID` is `id`. -/
def findItem (id : Int) : List InventoryItem → Option (Nat × InventoryItem)
  | [] => none
  | item :: rest =>
    if item.ID = id then some (0, item)
    else (findItem id rest).map (fun p => (p.1 + 1, p.2))

/-- How a call of `removeInventoryItem` ends: one of its three refusals, normal
completion, or one of the two run-time faults it can run into. -/
inductive RemoveOutcome where
  | userInventoryNotFound
  | itemNotFound
  | cannotRemoveMore
  | removed
  | indexOutOfRange
  | nilMapWrite
  deriving DecidableEq, Repr

/-- Go `removeInventoryItem`; `tBlock` and `tTx` are the two clock readings (new
block, then transaction).  The first component is the ledger in memory when the
call ends (for a fault: when the fault is raised). -/
def removeInventoryItem (sha : String → String) (tBlock tTx : Int) (blockchain : Blockchain)
    (username : String) (id quantity : Int) : Blockchain × RemoveOutcome :=
  match blockchain.UserInventories username with
  | none => (blockchain, RemoveOutcome.userInventoryNotFound)
  | some userInventory =>
    match findItem id userInventory with
    | none => (blockchain, RemoveOutcome.itemNotFound)
    | some (i, foundItem) =>
      if quantity > foundItem.Quantity then (blockchain, RemoveOutcome.cannotRemoveMore)
      else
        let foundItem1 : InventoryItem :=
          { foundItem with Quantity := wrapInt64 (foundItem.Quantity - quantity) }
        let bc1 : Blockchain :=
          { blockchain with
            UserInventories :=
              mapSet blockchain.UserInventories username (some (userInventory.set i foundItem1)) }
        match blockchain.Chain.getLast? with
        | none => (bc1, RemoveOutcome.indexOutOfRange)
        | some lastBlock =>
          let prevBlock : Block :=
            { lastBlock with
              InventoryTransactions := lastBlock.InventoryTransactions ++ [foundItem1] }
          let newBlock := createNewBlock sha tBlock prevBlock "Inventory updated"
            prevBlock.Difficulty prevBlock.InventoryTransactions
          let bc2 : Blockchain := { bc1 with Chain := blockchain.Chain ++ [newBlock] }
          match blockchain.UserTransactions with
          | none => (bc2, RemoveOutcome.nilMapWrite)
          | some transactions =>
            let transaction : Transaction :=
              { Username := username, Timestamp := tTx, Action := "remove", Item := foundItem1 }
            ({ bc2 with
               UserTransactions :=
                 some (mapSet transactions username (transactions username ++ [transaction])) },
             RemoveOutcome.removed)

/-! ## Transaction report -/

/-- The counter update of `logTransactions` for one transaction. -/
def logStep (currentQuantities : String → Int) (transaction : Transaction) : String → Int :=
  if transaction.Action = "add" then
    mapSet currentQuantities transaction.Item.Name
      (wrapInt64 (currentQuantities transaction.Item.Name + transaction.Item.Quantity))
  else if transaction.Action = "remove" then
    mapSet currentQuantities transaction.Item.Name
      (wrapInt64 (currentQuantities transaction.Item.Name - transaction.Item.Quantity))
  else currentQuantities

/-- The map `currentQuantities` of `logTransactions` after the whole log of
`username` has been walked (a missing key reads as 0). -/
def logTransactions (blockchain : Blockchain) (username : String) : String → Int :=
  (blockchain.transactionsOf username).foldl logStep (fun _ => 0)

/-! ## Chains and ledgers built by the constructors -/

/-- The arguments of one `createNewBlock` call (besides the previous block). -/
structure AppendArgs where
  now : Int
  data : String
  difficulty : Int
  inventoryTransactions : List InventoryItem

/-- One append: `createNewBlock` on the current last block, result put at the
end of the chain. -/
def appendBlock (sha : String → String) (chain : List Block) (a : AppendArgs) : List Block :=
  match chain.getLast? with
  | none => chain
  | some lastBlock =>
    chain ++ [createNewBlock sha a.now lastBlock a.data a.difficulty a.inventoryTransactions]

/-- The chain `[createGenesisBlock]` extended by a sequence of appends. -/
def buildChain (sha : String → String) (tGenesis difficulty : Int) (appends : List AppendArgs) :
    List Block :=
  appends.foldl (appendBlock sha) [createGenesisBlock sha tGenesis difficulty]

/-- The ledger `mainMenu` starts with when no snapshot exists: the genesis block
and two empty maps. -/
def freshLedger (sha : String → String) (now difficulty : Int) : Blockchain :=
  { Chain := [createGenesisBlock sha now difficulty],
    UserInventories := fun _ => none,
    UserTransactions := some (fun _ => []) }

/-! ## Sequences of calls -/

/-- One call of the console menu's first two entries, with the clock readings
the call will see. -/
inductive Call where
  | add (now : Int) (username name : String) (quantity : Int)
  | remove (tBlock tTx : Int) (username : String) (id quantity : Int)

/-- The integer arguments of a call are Go `int` values. -/
def Call.wellTyped : Call → Prop
  | Call.add _ _ _ quantity => isInt64 quantity
  | Call.remove _ _ _ id quantity => isInt64 id ∧ isInt64 quantity

/-- The quantity argument of a call is not negative. -/
def Call.nonnegQuantity : Call → Prop
  | Call.add _ _ _ quantity => 0 ≤ quantity
  | Call.remove _ _ _ _ quantity => 0 ≤ quantity

instance (c : Call) : Decidable c.wellTyped := by
  cases c <;> unfold Call.wellTyped <;> exact inferInstance

instance (c : Call) : Decidable c.nonnegQuantity := by
  cases c <;> unfold Call.nonnegQuantity <;> exact inferInstance

/-- A `removeInventoryItem` call that was not refused. -/
structure Removal where
  username : String
  id : Int
  quantity : Int
  deriving DecidableEq, Repr

/-- Run one call on the ledger `s.1`; `s.2` records, in order, the remove calls
that were carried out.  `none`: the call ended in a run-time fault. -/
def applyCall (sha : String → String) (s : Blockchain × List Removal) :
    Call → Option (Blockchain × List Removal)
  | Call.add now username name quantity =>
    some (addInventoryItem now s.1 username name quantity, s.2)
  | Call.remove tBlock tTx username id quantity =>
    match removeInventoryItem sha tBlock tTx s.1 username id quantity with
    | (bc, RemoveOutcome.removed) => some (bc, s.2 ++ [⟨username, id, quantity⟩])
    | (_, RemoveOutcome.indexOutOfRange) => none
    | (_, RemoveOutcome.nilMapWrite) => none
    | (bc, _) => some (bc, s.2)

/-- Run a sequence of calls from a ledger. -/
def runCalls (sha : String → String) (blockchain : Blockchain) (calls : List Call) :
    Option (Blockchain × List Removal) :=
  calls.foldlM (applyCall sha) (blockchain, [])

/-! ## Notions used to state the results -/

/-- The five fields that `calculateHash` reads. -/
def hashedFields (b : Block) : Int × Int × String × String × Int :=
  (b.Index, b.Timestamp, b.PrevHash, b.Data, b.Nonce)

/-- Every item of every inventory has a non-negative quantity. -/
def AllQuantitiesNonneg (blockchain : Blockchain) : Prop :=
  ∀ (u : String) (inv : List InventoryItem), blockchain.UserInventories u = some inv →
    ∀ it ∈ inv, 0 ≤ it.Quantity

/-- The quantities passed by the `addInventoryItem` calls of user `u`, in call
order. -/
def addedQuantities (u : String) (calls : List Call) : List Int :=
  calls.filterMap (fun c =>
    match c with
    | Call.add _ username _ quantity => if username = u then some quantity else none
    | Call.remove _ _ _ _ _ => none)

/-- The sum of the quantities of the recorded removals on user `u` and item
id `id`. -/
def removedTotal (log : List Removal) (u : String) (id : Int) : Int :=
  ((log.filter (fun r => decide (r.username = u ∧ r.id = id))).map Removal.quantity).sum

/-! ## Notions used in the proofs -/

/-- Value of a decimal digit string, most significant digit first. -/
def decimalValue (cs : List Char) : Nat :=
  cs.foldl (fun acc c => 10 * acc + (c.toNat - 48)) 0

/-- Invariant of `buildChain`: the chain is non-empty, passes the audit, and its
last block stores its own hash. -/
def SelfHashed (sha : String → String) (chain : List Block) : Prop :=
  auditChain sha chain = AuditResult.passed ∧
    ∃ last, chain.getLast? = some last ∧ last.Hash = calculateHash sha last

/-- The chain is non-empty and the transaction map is not nil: the two facts
that keep `removeInventoryItem` clear of run-time faults. -/
def FaultFree (bc : Blockchain) : Prop :=
  (∃ tip, bc.Chain.getLast? = some tip) ∧ (∃ m, bc.UserTransactions = some m)

/-- Every quantity is a non-negative Go `int`. -/
def QuantitiesInRange (bc : Blockchain) : Prop :=
  ∀ (u : String) (inv : List InventoryItem), bc.UserInventories u = some inv →
    ∀ it ∈ inv, 0 ≤ it.Quantity ∧ isInt64 it.Quantity

/-- The invariant that ties a ledger state to the calls that produced it. -/
def Tracks (calls : List Call) (s : Blockchain × List Removal) : Prop :=
  FaultFree s.1
  ∧ (∀ u, (s.1.inventoryOf u).length = (addedQuantities u calls).length)
  ∧ (∀ (u : String) (i : Nat) (it : InventoryItem), (s.1.inventoryOf u)[i]? = some it →
      it.ID = (i : Int) + 1
      ∧ ∃ q0, (addedQuantities u calls)[i]? = some q0
        ∧ it.Quantity = wrapInt64 (q0 - removedTotal s.2 u ((i : Int) + 1)))
  ∧ (∀ r ∈ s.2, ∃ i : Nat, r.id = (i : Int) + 1 ∧ i < (s.1.inventoryOf r.username).length)

/-! ## Sample ledgers -/

/-- A two-block ledger built by the constructors, with the identity standing in
for the hash function. -/
def sampleLedger : Blockchain :=
  { Chain := buildChain id 100 3 [⟨200, "Inventory updated", 3, []⟩],
    UserInventories := fun _ => none, UserTransactions := some (fun _ => []) }

/-- Block 1 of `sampleLedger`. -/
def sampleBlock : Block :=
  createNewBlock id 200 (createGenesisBlock id 100 3) "Inventory updated" 3 []

/-- A ledger in which alice holds 3 swords. -/
def aliceLedger : Blockchain :=
  { Chain := [createGenesisBlock id 100 3],
    UserInventories := fun u => if u = "alice" then some [⟨1, "sword", 3⟩] else none,
    UserTransactions := some (fun _ => []) }

/-- A ledger as `loadBlockchain` can return it: one block whose `Index` is the
largest Go `int`, and alice holding the largest Go `int` of swords. -/
def brimLedger : Blockchain :=
  { Chain := [⟨9223372036854775807, 100, "0", "Genesis Block", 0, 3, "", []⟩],
    UserInventories :=
      fun u => if u = "alice" then some [⟨1, "sword", 9223372036854775807⟩] else none,
    UserTransactions := some (fun _ => []) }

/-- The ledger `aliceLedger` as `loadBlockchain` returns it from a snapshot that
has no `UserTransactions` entry: the transaction map is nil. -/
def nilLogLedger : Blockchain :=
  { aliceLedger with UserTransactions := none }

/-! ## Lemmas: decimal printing is injective -/

theorem digitChar_value (k : Nat) (hk : k < 10) : (Nat.digitChar k).toNat - 48 = k := by
  interval_cases k <;> rfl

theorem digitChar_ne_minus (k : Nat) (hk : k < 10) : Nat.digitChar k ≠ '-' := by
  interval_cases k <;> decide

theorem toDigitsCore_acc (fuel : Nat) : ∀ (n : Nat) (ds : List Char),
    Nat.toDigitsCore 10 fuel n ds = Nat.toDigitsCore 10 fuel n [] ++ ds := by
  induction fuel with
  | zero => intro n ds; simp [Nat.toDigitsCore]
  | succ f ih =>
    intro n ds
    simp only [Nat.toDigitsCore]
    split_ifs with h
    · simp
    · rw [ih (n / 10) (_ :: ds), ih (n / 10) [_]]
      simp

theorem decimalValue_append_singleton (cs : List Char) (c : Char) :
    decimalValue (cs ++ [c]) = 10 * decimalValue cs + (c.toNat - 48) := by
  simp [decimalValue, List.foldl_append]

theorem decimalValue_toDigitsCore (fuel : Nat) : ∀ n, n < fuel →
    decimalValue (Nat.toDigitsCore 10 fuel n []) = n := by
  induction fuel with
  | zero => intro n h; omega
  | succ f ih =>
    intro n hn
    simp only [Nat.toDigitsCore]
    split_ifs with h
    · have : n < 10 := by omega
      simp [decimalValue, digitChar_value (n % 10) (Nat.mod_lt _ (by decide))]
      omega
    · rw [toDigitsCore_acc, decimalValue_append_singleton, ih (n / 10) (by omega),
        digitChar_value (n % 10) (Nat.mod_lt _ (by decide))]
      omega

theorem toDigitsCore_head (fuel : Nat) : ∀ n, n < fuel →
    ∃ k, k < 10 ∧ ∃ tl, Nat.toDigitsCore 10 fuel n [] = Nat.digitChar k :: tl := by
  induction fuel with
  | zero => intro n h; omega
  | succ f ih =>
    intro n hn
    simp only [Nat.toDigitsCore]
    split_ifs with h
    · exact ⟨n % 10, Nat.mod_lt _ (by decide), [], rfl⟩
    · obtain ⟨k, hk, tl, htl⟩ := ih (n / 10) (by omega)
      rw [toDigitsCore_acc, htl]
      exact ⟨k, hk, _, rfl⟩

theorem natRepr_injective {m n : Nat} (h : Nat.repr m = Nat.repr n) : m = n := by
  have h1 : Nat.toDigits 10 m = Nat.toDigits 10 n := congrArg String.data h
  have := congrArg decimalValue h1
  simpa [Nat.toDigits, decimalValue_toDigitsCore] using this

theorem toString_int_injective {a b : Int} (h : toString a = toString b) : a = b := by
  cases a with
  | ofNat m =>
    cases b with
    | ofNat n =>
      have : Nat.repr m = Nat.repr n := h
      rw [natRepr_injective this]
    | negSucc n =>
      exfalso
      have h' : Nat.repr m = "-" ++ Nat.repr (n + 1) := h
      obtain ⟨k, hk, tl, htl⟩ := toDigitsCore_head (m + 1) m (by omega)
      have h2 := congrArg String.data h'
      simp only [Nat.repr, List.asString, Nat.toDigits, String.data_append] at h2
      rw [htl] at h2
      simp at h2
      exact digitChar_ne_minus k hk h2.1
  | negSucc m =>
    cases b with
    | ofNat n =>
      exfalso
      have h' : "-" ++ Nat.repr (m + 1) = Nat.repr n := h
      obtain ⟨k, hk, tl, htl⟩ := toDigitsCore_head (n + 1) n (by omega)
      have h2 := congrArg String.data h'
      simp only [Nat.repr, List.asString, Nat.toDigits, String.data_append] at h2
      rw [htl] at h2
      simp at h2
      exact digitChar_ne_minus k hk h2.1.symm
    | negSucc n =>
      have h' : "-" ++ Nat.repr (m + 1) = "-" ++ Nat.repr (n + 1) := h
      have h2 := congrArg String.data h'
      simp only [String.data_append, List.append_cancel_left_eq] at h2
      have h3 : Nat.repr (m + 1) = Nat.repr (n + 1) := String.ext h2
      have := natRepr_injective h3
      congr 1
      omega

/-! ## Lemmas: the hashed record -/

theorem hashRecord_data_ne (b : Block) (d : String) (h : d ≠ b.Data) :
    hashRecord { b with Data := d } ≠ hashRecord b := by
  intro heq
  apply h
  have h2 := congrArg String.data heq
  simp only [hashRecord, String.data_append, List.append_assoc, List.append_cancel_left_eq,
    List.append_cancel_right_eq] at h2
  exact String.ext h2

theorem hashRecord_nonce_ne (b : Block) (n : Int) (h : n ≠ b.Nonce) :
    hashRecord { b with Nonce := n } ≠ hashRecord b := by
  intro heq
  apply h
  have h2 := congrArg String.data heq
  simp only [hashRecord, String.data_append, List.append_assoc, List.append_cancel_left_eq] at h2
  exact toString_int_injective (String.ext h2)

/-! ## Lemmas: hashes stored by the constructors -/

theorem calculateHash_createNewBlock (sha : String → String) (now : Int) (p : Block)
    (data : String) (difficulty : Int) (inv : List InventoryItem) :
    (createNewBlock sha now p data difficulty inv).Hash
      = calculateHash sha (createNewBlock sha now p data difficulty inv) := rfl

theorem calculateHash_createGenesisBlock (sha : String → String) (now difficulty : Int) :
    (createGenesisBlock sha now difficulty).Hash
      = calculateHash sha (createGenesisBlock sha now difficulty) := rfl

/-! ## Lemmas: audit of an extended chain -/

theorem auditFrom_append_passed (sha : String → String) (rest : List Block) :
    ∀ (prev b : Block), auditFrom sha prev rest = AuditResult.passed →
      b.PrevHash = calculateHash sha ((prev :: rest).getLast (List.cons_ne_nil _ _)) →
      b.Hash = calculateHash sha b →
      auditFrom sha prev (rest ++ [b]) = AuditResult.passed := by
  induction rest with
  | nil =>
    intro prev b _ hp hh
    simp only [List.getLast_singleton] at hp
    simp [auditFrom, hp, hh.symm]
  | cons c tl ih =>
    intro prev b hpass hp hh
    simp only [auditFrom, List.cons_append] at hpass ⊢
    split_ifs at hpass ⊢ with h1 h2
    refine ih c b hpass ?_ hh
    rw [hp, List.getLast_cons (List.cons_ne_nil _ _)]

theorem appendBlock_eq (sha : String → String) (chain : List Block) (a : AppendArgs)
    (last : Block) (hlast : chain.getLast? = some last) :
    appendBlock sha chain a
      = chain ++ [createNewBlock sha a.now last a.data a.difficulty a.inventoryTransactions] := by
  simp only [appendBlock, hlast]

theorem selfHashed_appendBlock (sha : String → String) (chain : List Block) (a : AppendArgs)
    (h : SelfHashed sha chain) : SelfHashed sha (appendBlock sha chain a) := by
  obtain ⟨hpass, last, hlast, hhash⟩ := h
  rw [appendBlock_eq sha chain a last hlast]
  refine ⟨?_, createNewBlock sha a.now last a.data a.difficulty a.inventoryTransactions,
    by simp, calculateHash_createNewBlock ..⟩
  cases chain with
  | nil => simp at hlast
  | cons g rest =>
    simp only [auditChain, List.cons_append] at hpass ⊢
    apply auditFrom_append_passed sha rest g _ hpass
    · have : (g :: rest).getLast (List.cons_ne_nil _ _) = last := by
        rw [List.getLast?_eq_getLast _ (List.cons_ne_nil _ _)] at hlast
        exact Option.some.inj hlast
      rw [this]
      exact hhash
    · rfl

theorem selfHashed_foldl (sha : String → String) (appends : List AppendArgs) :
    ∀ chain, SelfHashed sha chain → SelfHashed sha (appends.foldl (appendBlock sha) chain) := by
  induction appends with
  | nil => intro chain h; exact h
  | cons a tl ih => intro chain h; exact ih _ (selfHashed_appendBlock sha chain a h)

theorem length_appendBlock_foldl (sha : String → String) (appends : List AppendArgs) :
    ∀ chain : List Block, chain ≠ [] →
      (appends.foldl (appendBlock sha) chain).length = chain.length + appends.length := by
  induction appends with
  | nil => intro chain _; simp
  | cons a tl ih =>
    intro chain hne
    obtain ⟨last, hlast⟩ : ∃ last, chain.getLast? = some last :=
      ⟨chain.getLast hne, List.getLast?_eq_getLast _ hne⟩
    rw [List.foldl_cons, appendBlock_eq sha chain a last hlast, ih _ (by simp)]
    simp only [List.length_append, List.length_cons, List.length_nil]
    omega

/-! ## Lemmas: audit of a chain with one block overwritten -/

theorem auditFrom_set_corrupted (sha : String → String) (rest : List Block) :
    ∀ (prev : Block) (j : Nat) (hj : j < rest.length) (b : Block),
      auditFrom sha prev rest = AuditResult.passed →
      b.Hash = (rest.get ⟨j, hj⟩).Hash →
      (b.PrevHash ≠ (rest.get ⟨j, hj⟩).PrevHash ∨
        calculateHash sha b ≠ calculateHash sha (rest.get ⟨j, hj⟩)) →
      auditFrom sha prev (rest.set j b) = AuditResult.corrupted b.Index := by
  induction rest with
  | nil => intro prev j hj; simp at hj
  | cons c tl ih =>
    intro prev j hj b hpass hhash hdiff
    simp only [auditFrom] at hpass
    split_ifs at hpass with h1 h2
    simp only [ne_eq, not_not] at h1 h2
    cases j with
    | zero =>
      simp only [List.get_eq_getElem, List.getElem_cons_zero] at hhash hdiff
      simp only [List.set_cons_zero, auditFrom]
      rcases hdiff with hp | hc
      · rw [if_pos (by rw [← h1]; exact hp)]
      · split_ifs with h3
        · rfl
        · rfl
        · exfalso
          simp only [ne_eq, not_not] at *
          apply hc
          rw [← ‹b.Hash = calculateHash sha b›, hhash, h2]
    | succ j =>
      simp only [List.set_cons_succ, auditFrom, ne_eq, h1, h2, not_true_eq_false, if_false]
      exact ih c j (by simpa using hj) b hpass (by simpa using hhash) (by simpa using hdiff)

theorem auditChain_set_corrupted (sha : String → String) (chain : List Block) (k : Nat)
    (hk1 : 1 ≤ k) (hk : k < chain.length) (b : Block)
    (hpass : auditChain sha chain = AuditResult.passed)
    (hhash : b.Hash = (chain.get ⟨k, hk⟩).Hash)
    (hdiff : b.PrevHash ≠ (chain.get ⟨k, hk⟩).PrevHash ∨
      calculateHash sha b ≠ calculateHash sha (chain.get ⟨k, hk⟩)) :
    auditChain sha (chain.set k b) = AuditResult.corrupted b.Index := by
  cases chain with
  | nil => simp at hk
  | cons g rest =>
    cases k with
    | zero => omega
    | succ j =>
      simp only [List.set_cons_succ, auditChain] at hpass ⊢
      exact auditFrom_set_corrupted sha rest g j (by simpa using hk) b hpass
        (by simpa using hhash) (by simpa using hdiff)

/-! ## Lemmas: what the audit reads -/

theorem calculateHash_congr (sha : String → String) (b c : Block)
    (h : hashedFields b = hashedFields c) : calculateHash sha b = calculateHash sha c := by
  simp only [hashedFields, Prod.mk.injEq] at h
  obtain ⟨h1, h2, h3, h4, h5⟩ := h
  simp only [calculateHash, hashRecord, h1, h2, h3, h4, h5]

theorem auditFrom_congr (sha : String → String) (rest rest1 : List Block)
    (h : List.Forall₂ (fun b c => hashedFields b = hashedFields c ∧ b.Hash = c.Hash) rest rest1) :
    ∀ prev prev1 : Block, hashedFields prev = hashedFields prev1 →
      auditFrom sha prev rest = auditFrom sha prev1 rest1 := by
  induction h with
  | nil => intro _ _ _; rfl
  | @cons b c tl tl1 hbc _ ih =>
    intro prev prev1 hp
    have hi : b.Index = c.Index := congrArg Prod.fst hbc.1
    have hph : b.PrevHash = c.PrevHash := by
      have := hbc.1
      simp only [hashedFields, Prod.mk.injEq] at this
      exact this.2.2.1
    simp only [auditFrom, calculateHash_congr sha prev prev1 hp,
      calculateHash_congr sha b c hbc.1, hbc.2, hi, hph, ih b c hbc.1]

/-! ## Lemmas: machine integers -/

theorem wrapInt64_of_isInt64 (x : Int) (h : isInt64 x) : wrapInt64 x = x := by
  unfold isInt64 at h; unfold wrapInt64; omega

theorem wrapInt64_sub_wrap (a q : Int) : wrapInt64 (wrapInt64 a - q) = wrapInt64 (a - q) := by
  unfold wrapInt64; omega

theorem isInt64_wrapInt64 (x : Int) : isInt64 (wrapInt64 x) := by
  unfold isInt64 wrapInt64; omega

/-! ## Lemmas: the search loop -/

theorem findItem_eq_none_iff (id : Int) (l : List InventoryItem) :
    findItem id l = none ↔ ∀ it ∈ l, it.ID ≠ id := by
  induction l with
  | nil => simp [findItem]
  | cons a tl ih =>
    simp only [findItem]
    split_ifs with h
    · simp [h]
    · simp [h, ih]

theorem findItem_eq_some_iff (id : Int) (l : List InventoryItem) :
    ∀ (i : Nat) (it : InventoryItem), findItem id l = some (i, it) ↔
      (l[i]? = some it ∧ it.ID = id ∧ ∀ j x, j < i → l[j]? = some x → x.ID ≠ id) := by
  induction l with
  | nil => intro i it; simp [findItem]
  | cons a tl ih =>
    intro i it
    simp only [findItem]
    split_ifs with h
    · constructor
      · intro heq
        simp only [Option.some.injEq, Prod.mk.injEq] at heq
        obtain ⟨rfl, rfl⟩ := heq
        exact ⟨by simp, h, fun j x hj => by omega⟩
      · rintro ⟨hi, _, hfirst⟩
        cases i with
        | zero => simp at hi; simp [hi]
        | succ i => exact absurd h (hfirst 0 a (by omega) (by simp))
    · cases i with
      | zero =>
        constructor
        · intro heq
          simp [Option.map_eq_some'] at heq
        · rintro ⟨hi, hid, _⟩
          simp at hi
          exact absurd (hi ▸ hid) h
      | succ i =>
        constructor
        · intro heq
          have h2 : findItem id tl = some (i, it) := by
            cases hf : findItem id tl with
            | none => simp [hf] at heq
            | some p =>
              simp only [hf, Option.map_some', Option.some.injEq, Prod.mk.injEq,
                add_left_inj] at heq
              obtain ⟨h1, h2⟩ := heq
              rw [← h1, ← h2]
          obtain ⟨hi, hid, hfirst⟩ := (ih i it).mp h2
          refine ⟨by simpa using hi, hid, ?_⟩
          intro j x hj hx
          cases j with
          | zero => simp at hx; rw [← hx]; exact h
          | succ j => exact hfirst j x (by omega) (by simpa using hx)
        · rintro ⟨hi, hid, hfirst⟩
          have h2 : findItem id tl = some (i, it) :=
            (ih i it).mpr ⟨by simpa using hi, hid,
              fun j x hj hx => hfirst (j + 1) x (by omega) (by simpa using hx)⟩
          simp [h2]

/-! ## Lemmas: one call -/

/-- On a ledger with a non-empty chain and a non-nil transaction map,
`removeInventoryItem` either refuses and returns the ledger as it was, or
completes with the effect described. -/
theorem removeInventoryItem_cases (sha : String → String) (tBlock tTx : Int)
    (bc : Blockchain) (username : String) (id quantity : Int) (tip : Block)
    (m : String → List Transaction)
    (hchain : bc.Chain.getLast? = some tip) (htx : bc.UserTransactions = some m) :
    ((removeInventoryItem sha tBlock tTx bc username id quantity).1 = bc
      ∧ ((removeInventoryItem sha tBlock tTx bc username id quantity).2
            = RemoveOutcome.userInventoryNotFound
        ∨ (removeInventoryItem sha tBlock tTx bc username id quantity).2
            = RemoveOutcome.itemNotFound
        ∨ (removeInventoryItem sha tBlock tTx bc username id quantity).2
            = RemoveOutcome.cannotRemoveMore))
    ∨ (∃ (inv : List InventoryItem) (i : Nat) (it : InventoryItem),
        bc.UserInventories username = some inv ∧ inv[i]? = some it ∧ it.ID = id
        ∧ quantity ≤ it.Quantity
        ∧ (removeInventoryItem sha tBlock tTx bc username id quantity).2 = RemoveOutcome.removed
        ∧ (removeInventoryItem sha tBlock tTx bc username id quantity).1.UserInventories
            = mapSet bc.UserInventories username
                (some (inv.set i ⟨it.ID, it.Name, wrapInt64 (it.Quantity - quantity)⟩))
        ∧ (∃ b, (removeInventoryItem sha tBlock tTx bc username id quantity).1.Chain
            = bc.Chain ++ [b])
        ∧ (∃ m1, (removeInventoryItem sha tBlock tTx bc username id quantity).1.UserTransactions
            = some m1)) := by
  cases hinv : bc.UserInventories username with
  | none => left; simp [removeInventoryItem, hinv]
  | some inv =>
    cases hfind : findItem id inv with
    | none => left; simp [removeInventoryItem, hinv, hfind]
    | some p =>
      obtain ⟨i, it⟩ := p
      by_cases hq : quantity > it.Quantity
      · left; simp [removeInventoryItem, hinv, hfind, hq]
      · right
        obtain ⟨hi, hid, _⟩ := (findItem_eq_some_iff id inv i it).mp hfind
        refine ⟨inv, i, it, rfl, hi, hid, not_lt.mp hq, ?_, ?_, ?_, ?_⟩
        · simp [removeInventoryItem, hinv, hfind, hq, hchain, htx]
        · simp [removeInventoryItem, hinv, hfind, hq, hchain, htx]
        · simp only [removeInventoryItem, hinv, hfind, hq, hchain, htx, if_false]
          exact ⟨_, rfl⟩
        · simp only [removeInventoryItem, hinv, hfind, hq, hchain, htx, if_false]
          exact ⟨_, rfl⟩

theorem applyCall_remove_removed (sha : String → String) (s : Blockchain × List Removal)
    (tBlock tTx : Int) (username : String) (id quantity : Int)
    (h : (removeInventoryItem sha tBlock tTx s.1 username id quantity).2 = RemoveOutcome.removed) :
    applyCall sha s (Call.remove tBlock tTx username id quantity)
      = some ((removeInventoryItem sha tBlock tTx s.1 username id quantity).1,
          s.2 ++ [⟨username, id, quantity⟩]) := by
  simp only [applyCall]
  generalize removeInventoryItem sha tBlock tTx s.1 username id quantity = r at h ⊢
  obtain ⟨bc, o⟩ := r
  simp only at h
  subst h
  rfl

theorem applyCall_remove_refused (sha : String → String) (s : Blockchain × List Removal)
    (tBlock tTx : Int) (username : String) (id quantity : Int)
    (h : (removeInventoryItem sha tBlock tTx s.1 username id quantity).2
          = RemoveOutcome.userInventoryNotFound
      ∨ (removeInventoryItem sha tBlock tTx s.1 username id quantity).2
          = RemoveOutcome.itemNotFound
      ∨ (removeInventoryItem sha tBlock tTx s.1 username id quantity).2
          = RemoveOutcome.cannotRemoveMore) :
    applyCall sha s (Call.remove tBlock tTx username id quantity)
      = some ((removeInventoryItem sha tBlock tTx s.1 username id quantity).1, s.2) := by
  simp only [applyCall]
  generalize removeInventoryItem sha tBlock tTx s.1 username id quantity = r at h ⊢
  obtain ⟨bc, o⟩ := r
  simp only at h
  rcases h with h | h | h <;> subst h <;> rfl

theorem faultFree_freshLedger (sha : String → String) (now difficulty : Int) :
    FaultFree (freshLedger sha now difficulty) :=
  ⟨⟨_, rfl⟩, ⟨_, rfl⟩⟩

theorem faultFree_addInventoryItem (now : Int) (bc : Blockchain) (username name : String)
    (quantity : Int) (h : FaultFree bc) :
    FaultFree (addInventoryItem now bc username name quantity) :=
  ⟨h.1, ⟨_, rfl⟩⟩

/-! ## Lemmas: sequences of calls -/

/-- Induction principle for `runCalls`: a property of (calls run so far, state)
that holds initially and is carried by every admissible call, with the call
completing, holds at the end of every admissible sequence, which completes. -/
theorem runCalls_induction (sha : String → String)
    (P : List Call → Blockchain × List Removal → Prop) (admissible : Call → Prop)
    (hstep : ∀ calls s c, P calls s → admissible c →
      ∃ s1, applyCall sha s c = some s1 ∧ P (calls ++ [c]) s1)
    (bc : Blockchain) (h0 : P [] (bc, [])) (calls : List Call)
    (hadm : ∀ c ∈ calls, admissible c) :
    ∃ s, runCalls sha bc calls = some s ∧ P calls s := by
  induction calls using List.reverseRecOn with
  | nil => exact ⟨(bc, []), rfl, h0⟩
  | append_singleton calls c ih =>
    obtain ⟨s, hs, hP⟩ := ih (fun c hc => hadm c (List.mem_append_left _ hc))
    obtain ⟨s1, hs1, hP1⟩ := hstep calls s c hP (hadm c (by simp))
    refine ⟨s1, ?_, hP1⟩
    unfold runCalls at hs ⊢
    rw [List.foldlM_append, hs]
    simp [hs1]

theorem applyCall_quantitiesInRange (sha : String → String) (s : Blockchain × List Removal)
    (c : Call) (hs : FaultFree s.1 ∧ QuantitiesInRange s.1)
    (hc : c.wellTyped ∧ c.nonnegQuantity) :
    ∃ s1, applyCall sha s c = some s1 ∧ FaultFree s1.1 ∧ QuantitiesInRange s1.1 := by
  obtain ⟨hff, hqr⟩ := hs
  cases c with
  | add now username name quantity =>
    refine ⟨_, rfl, faultFree_addInventoryItem now s.1 username name quantity hff, ?_⟩
    intro u inv hinv it hit
    by_cases hu : u = username
    · subst hu
      simp only [addInventoryItem, mapSet, if_true, Option.some.injEq] at hinv
      subst hinv
      rcases List.mem_append.mp hit with hold | hnew
      · cases hold0 : s.1.UserInventories u with
        | none => simp [hold0] at hold
        | some inv0 =>
          rw [hold0] at hold
          exact hqr u inv0 hold0 it hold
      · simp only [List.mem_singleton] at hnew
        subst hnew
        exact ⟨hc.2, hc.1⟩
    · simp only [addInventoryItem, mapSet, hu, if_false] at hinv
      exact hqr u inv hinv it hit
  | remove tBlock tTx username id quantity =>
    obtain ⟨⟨tip, htip⟩, ⟨m, hm⟩⟩ := hff
    rcases removeInventoryItem_cases sha tBlock tTx s.1 username id quantity tip m htip hm with
      ⟨hsame, hout⟩ | ⟨inv0, i, it0, hinv0, hi, _, hq, hout, hinvs, ⟨b, hb⟩, hm1⟩
    · refine ⟨_, applyCall_remove_refused sha s tBlock tTx username id quantity hout, ?_, ?_⟩
      · simp only [hsame]; exact ⟨⟨tip, htip⟩, ⟨m, hm⟩⟩
      · simp only [hsame]; exact hqr
    · refine ⟨_, applyCall_remove_removed sha s tBlock tTx username id quantity hout,
        ⟨⟨b, by simp [hb]⟩, hm1⟩, ?_⟩
      intro u inv hinv it hit
      simp only [hinvs, mapSet] at hinv
      have hit0 : it0 ∈ inv0 := List.getElem?_mem hi
      have h0 := hqr username inv0 hinv0 it0 hit0
      by_cases hu : u = username
      · simp only [hu, if_true, Option.some.injEq] at hinv
        subst hinv
        rcases List.mem_or_eq_of_mem_set hit with hold | hnew
        · exact hqr username inv0 hinv0 it hold
        · subst hnew
          have hnn : 0 ≤ quantity := hc.2
          have hr : isInt64 (it0.Quantity - quantity) := by
            have := h0.2
            unfold isInt64 at this ⊢
            omega
          simp only [wrapInt64_of_isInt64 _ hr]
          exact ⟨by omega, hr⟩
      · simp only [hu, if_false] at hinv
        exact hqr u inv hinv it hit

/-! ## Lemmas: quantities against the history of calls -/

theorem removedTotal_append_singleton (log : List Removal) (r : Removal) (u : String) (id : Int) :
    removedTotal (log ++ [r]) u id
      = removedTotal log u id + (if r.username = u ∧ r.id = id then r.quantity else 0) := by
  unfold removedTotal
  by_cases h : r.username = u ∧ r.id = id
  · simp [List.filter_append, List.filter_cons, h]
  · simp [List.filter_append, List.filter_cons, h]

theorem removedTotal_eq_zero (log : List Removal) (u : String) (id : Int)
    (h : ∀ r ∈ log, ¬ (r.username = u ∧ r.id = id)) : removedTotal log u id = 0 := by
  unfold removedTotal
  have : log.filter (fun r => decide (r.username = u ∧ r.id = id)) = [] := by
    rw [List.filter_eq_nil_iff]
    intro r hr
    simpa using h r hr
  rw [this]
  rfl

theorem addedQuantities_append_add (u : String) (calls : List Call) (now : Int)
    (username name : String) (quantity : Int) :
    addedQuantities u (calls ++ [Call.add now username name quantity])
      = addedQuantities u calls ++ (if username = u then [quantity] else []) := by
  unfold addedQuantities
  by_cases h : username = u <;> simp [List.filterMap_append, List.filterMap_cons, h]

theorem addedQuantities_append_remove (u : String) (calls : List Call) (tBlock tTx : Int)
    (username : String) (id quantity : Int) :
    addedQuantities u (calls ++ [Call.remove tBlock tTx username id quantity])
      = addedQuantities u calls := by
  unfold addedQuantities
  simp [List.filterMap_append, List.filterMap_cons]

theorem inventoryOf_addInventoryItem (now : Int) (bc : Blockchain) (username name : String)
    (quantity : Int) (u : String) :
    (addInventoryItem now bc username name quantity).inventoryOf u
      = if u = username then
          bc.inventoryOf username
            ++ [⟨((bc.inventoryOf username).length : Int) + 1, name, quantity⟩]
        else bc.inventoryOf u := by
  by_cases h : u = username <;>
    simp [Blockchain.inventoryOf, addInventoryItem, mapSet, h]

theorem tracks_freshLedger (sha : String → String) (now difficulty : Int) :
    Tracks [] (freshLedger sha now difficulty, []) := by
  refine ⟨faultFree_freshLedger sha now difficulty, ?_, ?_, ?_⟩
  · intro u; simp [Blockchain.inventoryOf, freshLedger, addedQuantities]
  · intro u i it h; simp [Blockchain.inventoryOf, freshLedger] at h
  · intro r hr; simp at hr

theorem tracks_add (calls : List Call) (s : Blockchain × List Removal)
    (now : Int) (username name : String) (quantity : Int) (hs : Tracks calls s)
    (hq : isInt64 quantity) :
    Tracks (calls ++ [Call.add now username name quantity])
      (addInventoryItem now s.1 username name quantity, s.2) := by
  obtain ⟨hff, hlen, hitems, hlog⟩ := hs
  refine ⟨faultFree_addInventoryItem now s.1 username name quantity hff, ?_, ?_, ?_⟩
  · intro u
    simp only [inventoryOf_addInventoryItem, addedQuantities_append_add]
    by_cases hu : u = username
    · subst hu; simp [hlen u]
    · have hu' : ¬ username = u := fun h => hu h.symm
      simp [hu, hu', hlen u]
  · intro u i it hit
    simp only [inventoryOf_addInventoryItem, addedQuantities_append_add] at hit ⊢
    by_cases hu : u = username
    · subst hu
      simp only [if_true] at hit ⊢
      by_cases hi : i < (s.1.inventoryOf u).length
      · rw [List.getElem?_append_left hi] at hit
        obtain ⟨hid, q0, hq0, hqty⟩ := hitems u i it hit
        refine ⟨hid, q0, ?_, hqty⟩
        rw [List.getElem?_append_left (by rw [← hlen u]; exact hi)]
        exact hq0
      · have hi' : (s.1.inventoryOf u).length ≤ i := not_lt.mp hi
        rw [List.getElem?_append_right hi'] at hit
        have hi0 : i - (s.1.inventoryOf u).length = 0 := by
          by_contra hne
          obtain ⟨k, hk⟩ := Nat.exists_eq_succ_of_ne_zero hne
          rw [hk] at hit
          simp at hit
        rw [hi0] at hit
        simp only [List.getElem?_cons_zero, Option.some.injEq] at hit
        have hieq : i = (s.1.inventoryOf u).length := by omega
        subst hit
        refine ⟨by simp only; rw [hieq], quantity, ?_, ?_⟩
        · rw [List.getElem?_append_right (by rw [← hlen u]; exact hi'), ← hlen u, hi0]
          rfl
        · have hz : removedTotal s.2 u ((i : Int) + 1) = 0 := by
            apply removedTotal_eq_zero
            rintro r hr ⟨hru, hrid⟩
            obtain ⟨k, hk, hklt⟩ := hlog r hr
            rw [hru] at hklt
            omega
          simp only [hz, sub_zero]
          exact (wrapInt64_of_isInt64 _ hq).symm
    · have hu' : ¬ username = u := fun h => hu h.symm
      simp only [hu, hu', if_false, List.append_nil] at hit ⊢
      exact hitems u i it hit
  · intro r hr
    obtain ⟨k, hk, hklt⟩ := hlog r hr
    refine ⟨k, hk, ?_⟩
    simp only [inventoryOf_addInventoryItem]
    split_ifs with h
    · rw [h] at hklt
      simp only [List.length_append, List.length_singleton]
      omega
    · exact hklt

theorem tracks_remove (sha : String → String) (calls : List Call)
    (s : Blockchain × List Removal) (tBlock tTx : Int) (username : String) (id quantity : Int)
    (hs : Tracks calls s) :
    ∃ s1, applyCall sha s (Call.remove tBlock tTx username id quantity) = some s1
      ∧ Tracks (calls ++ [Call.remove tBlock tTx username id quantity]) s1 := by
  obtain ⟨hff, hlen, hitems, hlog⟩ := hs
  obtain ⟨⟨tip, htip⟩, ⟨m, hm⟩⟩ := hff
  rcases removeInventoryItem_cases sha tBlock tTx s.1 username id quantity tip m htip hm with
    ⟨hsame, hout⟩ | ⟨inv0, i0, it0, hinv0, hi0, hid0, _, hout, hinvs, ⟨b, hb⟩, hm1⟩
  · refine ⟨_, applyCall_remove_refused sha s tBlock tTx username id quantity hout, ?_⟩
    simp only [Tracks, hsame, addedQuantities_append_remove]
    exact ⟨⟨⟨tip, htip⟩, ⟨m, hm⟩⟩, hlen, hitems, hlog⟩
  · refine ⟨_, applyCall_remove_removed sha s tBlock tTx username id quantity hout, ?_⟩
    have hinvOf0 : s.1.inventoryOf username = inv0 := by
      simp [Blockchain.inventoryOf, hinv0]
    have hinvOf : ∀ u,
        (removeInventoryItem sha tBlock tTx s.1 username id quantity).1.inventoryOf u
          = if u = username then
              inv0.set i0 ⟨it0.ID, it0.Name, wrapInt64 (it0.Quantity - quantity)⟩
            else s.1.inventoryOf u := by
      intro u
      by_cases hu : u = username <;> simp [Blockchain.inventoryOf, hinvs, mapSet, hu]
    have hlenOf : ∀ u,
        ((removeInventoryItem sha tBlock tTx s.1 username id quantity).1.inventoryOf u).length
          = (s.1.inventoryOf u).length := by
      intro u
      rw [hinvOf u]
      split_ifs with hu
      · rw [hu, hinvOf0, List.length_set]
      · rfl
    have hi0' : (s.1.inventoryOf username)[i0]? = some it0 := by rw [hinvOf0]; exact hi0
    obtain ⟨hit0id, q00, hq00, hit0q⟩ := hitems username i0 it0 hi0'
    have hidi0 : id = (i0 : Int) + 1 := by rw [← hid0]; exact hit0id
    have hi0lt : i0 < inv0.length := (List.getElem?_eq_some.mp hi0).1
    refine ⟨⟨⟨b, by simp [hb]⟩, hm1⟩, ?_, ?_, ?_⟩
    · intro u
      simp only [hlenOf u, addedQuantities_append_remove]
      exact hlen u
    · intro u i it hit
      simp only [addedQuantities_append_remove, removedTotal_append_singleton]
      rw [hinvOf u] at hit
      by_cases hu : u = username
      · subst hu
        simp only [if_true] at hit
        by_cases hii : i0 = i
        · subst hii
          rw [List.getElem?_set_self hi0lt] at hit
          simp only [Option.some.injEq] at hit
          subst hit
          refine ⟨hit0id, q00, hq00, ?_⟩
          simp only [hidi0, and_self, if_true]
          rw [hit0q, wrapInt64_sub_wrap]
          congr 1
          ring
        · rw [List.getElem?_set_ne hii, ← hinvOf0] at hit
          obtain ⟨hid, q0, hq0, hqty⟩ := hitems u i it hit
          refine ⟨hid, q0, hq0, ?_⟩
          have hne : ¬ (id = (i : Int) + 1) := by
            rw [hidi0]
            intro h
            apply hii
            omega
          simp only [hne, and_false, if_false, add_zero]
          exact hqty
      · simp only [hu, if_false] at hit
        obtain ⟨hid, q0, hq0, hqty⟩ := hitems u i it hit
        refine ⟨hid, q0, hq0, ?_⟩
        have hu' : ¬ username = u := fun h => hu h.symm
        simp only [hu', false_and, if_false, add_zero]
        exact hqty
    · intro r hr
      rcases List.mem_append.mp hr with hold | hnew
      · obtain ⟨k, hk, hklt⟩ := hlog r hold
        exact ⟨k, hk, by rw [hlenOf]; exact hklt⟩
      · simp only [List.mem_singleton] at hnew
        subst hnew
        exact ⟨i0, hidi0, by rw [hlenOf, hinvOf0]; exact hi0lt⟩

theorem tracks_applyCall (sha : String → String) (calls : List Call)
    (s : Blockchain × List Removal) (c : Call) (hs : Tracks calls s) (hc : c.wellTyped) :
    ∃ s1, applyCall sha s c = some s1 ∧ Tracks (calls ++ [c]) s1 := by
  cases c with
  | add now username name quantity =>
    exact ⟨_, rfl, tracks_add calls s now username name quantity hs hc⟩
  | remove tBlock tTx username id quantity =>
    exact tracks_remove sha calls s tBlock tTx username id quantity hs

/-! ## Main results -/

/-- C1: for every hash function, every difficulty, every clock reading and every
finite sequence of appends, the chain consisting of the genesis block followed
by the blocks that `createNewBlock` builds on the current last block has one
block per append plus the genesis block and passes `auditBlockchain`; the empty
chain and every one-block chain pass as well. -/
theorem audit_passes_on_built_chain (sha : String → String) (tGenesis difficulty : Int)
    (appends : List AppendArgs) (inventories : String → Option (List InventoryItem))
    (transactions : Option (String → List Transaction)) (b : Block) :
    auditBlockchain sha
        { Chain := buildChain sha tGenesis difficulty appends,
          UserInventories := inventories, UserTransactions := transactions }
      = AuditResult.passed
    ∧ (buildChain sha tGenesis difficulty appends).length = appends.length + 1
    ∧ auditBlockchain sha
        { Chain := [], UserInventories := inventories, UserTransactions := transactions }
      = AuditResult.passed
    ∧ auditBlockchain sha
        { Chain := [b], UserInventories := inventories, UserTransactions := transactions }
      = AuditResult.passed := by
  refine ⟨?_, ?_, rfl, rfl⟩
  · have h0 : SelfHashed sha [createGenesisBlock sha tGenesis difficulty] :=
      ⟨rfl, _, rfl, calculateHash_createGenesisBlock ..⟩
    exact (selfHashed_foldl sha appends _ h0).1
  · unfold buildChain
    rw [length_appendBlock_foldl sha appends _ (by simp)]
    simp only [List.length_singleton, List.length_cons, List.length_nil]
    omega

/-- C2: in a chain that passes `auditBlockchain` and whose blocks carry their
positions as `Index`, overwrite exactly one of `Data`, `Nonce`, `PrevHash` of the
block at a position `k ≥ 1` by a different value (stored `Hash` and all other
blocks untouched).  Then the audit ends with the single report "block `k` is
corrupted".  For `Data` and `Nonce` this assumes that `sha` separates the two
records, which are shown to be different strings; for `PrevHash` nothing is
assumed about `sha`. -/
theorem audit_detects_single_field_change (sha : String → String) (blockchain : Blockchain)
    (k : Nat) (b : Block) (hk1 : 1 ≤ k) (hb : blockchain.Chain[k]? = some b)
    (hpass : auditBlockchain sha blockchain = AuditResult.passed)
    (hidx : ∀ (i : Nat) (hi : i < blockchain.Chain.length),
      (blockchain.Chain.get ⟨i, hi⟩).Index = (i : Int)) :
    (∀ d : String, d ≠ b.Data →
      hashRecord { b with Data := d } ≠ hashRecord b ∧
      ((hashRecord { b with Data := d } ≠ hashRecord b →
          sha (hashRecord { b with Data := d }) ≠ sha (hashRecord b)) →
        auditBlockchain sha
            { blockchain with Chain := blockchain.Chain.set k { b with Data := d } }
          = AuditResult.corrupted (k : Int))) ∧
    (∀ n : Int, n ≠ b.Nonce →
      hashRecord { b with Nonce := n } ≠ hashRecord b ∧
      ((hashRecord { b with Nonce := n } ≠ hashRecord b →
          sha (hashRecord { b with Nonce := n }) ≠ sha (hashRecord b)) →
        auditBlockchain sha
            { blockchain with Chain := blockchain.Chain.set k { b with Nonce := n } }
          = AuditResult.corrupted (k : Int))) ∧
    (∀ p : String, p ≠ b.PrevHash →
      auditBlockchain sha
          { blockchain with Chain := blockchain.Chain.set k { b with PrevHash := p } }
        = AuditResult.corrupted (k : Int)) := by
  obtain ⟨hk, hget⟩ := List.getElem?_eq_some.mp hb
  have hget' : blockchain.Chain.get ⟨k, hk⟩ = b := by simpa using hget
  have hbi : b.Index = (k : Int) := by rw [← hget']; exact hidx k hk
  refine ⟨fun d hd => ⟨hashRecord_data_ne b d hd, fun hsha => ?_⟩,
    fun n hn => ⟨hashRecord_nonce_ne b n hn, fun hsha => ?_⟩, fun p hp => ?_⟩
  · have := auditChain_set_corrupted sha blockchain.Chain k hk1 hk { b with Data := d } hpass
      (by rw [hget']) (Or.inr (by rw [hget']; exact hsha (hashRecord_data_ne b d hd)))
    simpa [auditBlockchain, hbi] using this
  · have := auditChain_set_corrupted sha blockchain.Chain k hk1 hk { b with Nonce := n } hpass
      (by rw [hget']) (Or.inr (by rw [hget']; exact hsha (hashRecord_nonce_ne b n hn)))
    simpa [auditBlockchain, hbi] using this
  · have := auditChain_set_corrupted sha blockchain.Chain k hk1 hk { b with PrevHash := p } hpass
      (by rw [hget']) (Or.inl (by rw [hget']; exact hp))
    simpa [auditBlockchain, hbi] using this

/-- C2 at `sampleLedger`, position 1: overwriting `Data` by `"x"`, `Nonce` by 7
or `PrevHash` by `"y"` is reported as corruption of block 1. -/
theorem audit_detects_single_field_change_witness :
    auditBlockchain id
        { sampleLedger with Chain := sampleLedger.Chain.set 1 { sampleBlock with Data := "x" } }
      = AuditResult.corrupted 1
    ∧ auditBlockchain id
        { sampleLedger with Chain := sampleLedger.Chain.set 1 { sampleBlock with Nonce := 7 } }
      = AuditResult.corrupted 1
    ∧ auditBlockchain id
        { sampleLedger with Chain := sampleLedger.Chain.set 1 { sampleBlock with PrevHash := "y" } }
      = AuditResult.corrupted 1 :=
  have h := audit_detects_single_field_change id sampleLedger 1 sampleBlock (by decide)
    (by decide) (by decide) (by decide)
  ⟨(h.1 "x" (by decide)).2 (fun hne => hne), (h.2.1 7 (by decide)).2 (fun hne => hne),
    h.2.2 "y" (by decide)⟩

/-- C3: if the user has no inventory entry, or no item of the user's inventory
has the given id, or the quantity exceeds the quantity of the first item with
that id, then `removeInventoryItem` ends with one of its three refusals and the
ledger (chain, every inventory, every transaction log) is the one it started
with. -/
theorem removeInventoryItem_refused_unchanged (sha : String → String) (tBlock tTx : Int)
    (blockchain : Blockchain) (username : String) (id quantity : Int)
    (h : blockchain.UserInventories username = none
      ∨ (∃ inv, blockchain.UserInventories username = some inv ∧ ∀ it ∈ inv, it.ID ≠ id)
      ∨ (∃ (inv : List InventoryItem) (i : Nat) (it : InventoryItem),
          blockchain.UserInventories username = some inv ∧ inv[i]? = some it
          ∧ it.ID = id ∧ (∀ (j : Nat) (x : InventoryItem), j < i → inv[j]? = some x → x.ID ≠ id)
          ∧ quantity > it.Quantity)) :
    (removeInventoryItem sha tBlock tTx blockchain username id quantity).1 = blockchain
    ∧ ((removeInventoryItem sha tBlock tTx blockchain username id quantity).2
          = RemoveOutcome.userInventoryNotFound
      ∨ (removeInventoryItem sha tBlock tTx blockchain username id quantity).2
          = RemoveOutcome.itemNotFound
      ∨ (removeInventoryItem sha tBlock tTx blockchain username id quantity).2
          = RemoveOutcome.cannotRemoveMore) := by
  rcases h with h | ⟨inv, hinv, hno⟩ | ⟨inv, i, it, hinv, hi, hid, hfirst, hq⟩
  · simp [removeInventoryItem, h]
  · have := (findItem_eq_none_iff id inv).mpr hno
    simp [removeInventoryItem, hinv, this]
  · have := (findItem_eq_some_iff id inv i it).mpr ⟨hi, hid, hfirst⟩
    simp [removeInventoryItem, hinv, this, hq]

/-- C3 at `aliceLedger`: removing 10 of alice's 3 swords changes nothing. -/
theorem removeInventoryItem_refused_unchanged_witness :
    (removeInventoryItem id 200 201 aliceLedger "alice" 1 10).1 = aliceLedger :=
  (removeInventoryItem_refused_unchanged id 200 201 aliceLedger "alice" 1 10
    (Or.inr (Or.inr ⟨[⟨1, "sword", 3⟩], 0, ⟨1, "sword", 3⟩, by decide, by decide, by decide,
      fun j x hj => absurd hj (Nat.not_lt_zero j), by decide⟩))).1

/-- C4 fails as stated: on a fresh genesis-only ledger alice adds
9223372036854775807 swords and then removes -1 of them.  The removal is not
refused, so the claimed quantity is 9223372036854775807 - (-1), but the item
holds -9223372036854775808. -/
theorem quantity_wraps_on_negative_removal :
    Call.wellTyped (Call.add 101 "alice" "sword" 9223372036854775807)
    ∧ Call.wellTyped (Call.remove 102 103 "alice" 1 (-1))
    ∧ ∃ s, runCalls id (freshLedger id 100 3)
          [Call.add 101 "alice" "sword" 9223372036854775807,
           Call.remove 102 103 "alice" 1 (-1)] = some s
      ∧ s.1.UserInventories "alice" = some [⟨1, "sword", -9223372036854775808⟩]
      ∧ addedQuantities "alice"
          [Call.add 101 "alice" "sword" 9223372036854775807,
           Call.remove 102 103 "alice" 1 (-1)] = [9223372036854775807]
      ∧ s.2 = [⟨"alice", 1, -1⟩]
      ∧ (-9223372036854775808 : Int) ≠ 9223372036854775807 - removedTotal s.2 "alice" 1 :=
  ⟨by decide, by decide, _, rfl, by decide, by decide, by decide, by decide⟩

/-- C4 as amended: every sequence of `addInventoryItem` and `removeInventoryItem` calls with
Go `int` arguments on a fresh genesis-only ledger runs to completion, and every
item of a user's resulting inventory, at position `i`, was created by that
user's `i`-th `addInventoryItem` call (counting from 0), carries the id `i + 1`,
and has as quantity the quantity `q0` of that call minus the sum of the
quantities of the `removeInventoryItem` calls on that user and that id which were
not refused, computed in Go `int` arithmetic; this is the mathematical
difference whenever that fits a Go `int`. -/
theorem quantity_eq_added_minus_removed (sha : String → String) (tGenesis difficulty : Int)
    (calls : List Call) (h : ∀ c ∈ calls, c.wellTyped) :
    ∃ s, runCalls sha (freshLedger sha tGenesis difficulty) calls = some s
      ∧ ∀ (u : String) (inv : List InventoryItem) (i : Nat) (it : InventoryItem),
          s.1.UserInventories u = some inv → inv[i]? = some it →
          it.ID = (i : Int) + 1
          ∧ ∃ q0, (addedQuantities u calls)[i]? = some q0
            ∧ it.Quantity = wrapInt64 (q0 - removedTotal s.2 u it.ID)
            ∧ (isInt64 (q0 - removedTotal s.2 u it.ID) →
                it.Quantity = q0 - removedTotal s.2 u it.ID) := by
  obtain ⟨s, hs, _, _, hitems, _⟩ := runCalls_induction sha Tracks Call.wellTyped
    (fun calls s c hP hc => tracks_applyCall sha calls s c hP hc)
    (freshLedger sha tGenesis difficulty) (tracks_freshLedger sha tGenesis difficulty) calls h
  refine ⟨s, hs, ?_⟩
  intro u inv i it hinv hit
  have hit' : (s.1.inventoryOf u)[i]? = some it := by
    simp [Blockchain.inventoryOf, hinv, hit]
  obtain ⟨hid, q0, hq0, hqty⟩ := hitems u i it hit'
  refine ⟨hid, q0, hq0, ?_, ?_⟩
  · rw [hid]; exact hqty
  · intro hr
    rw [hid] at hr ⊢
    rw [hqty, wrapInt64_of_isInt64 _ hr]

/-- C4 as amended, at the calls "alice adds 5 swords, removes 2, tries to remove 10,
removes 1": accepted removals total 3 and 2 swords are left. -/
theorem quantity_eq_added_minus_removed_witness :
    ∃ s, runCalls id (freshLedger id 100 3)
          [Call.add 101 "alice" "sword" 5, Call.remove 102 103 "alice" 1 2,
           Call.remove 104 105 "alice" 1 10, Call.remove 106 107 "alice" 1 1] = some s
      ∧ s.1.UserInventories "alice" = some [⟨1, "sword", 2⟩]
      ∧ removedTotal s.2 "alice" 1 = 3
      ∧ ∀ (u : String) (inv : List InventoryItem) (i : Nat) (it : InventoryItem),
          s.1.UserInventories u = some inv → inv[i]? = some it →
          it.ID = (i : Int) + 1
          ∧ ∃ q0, (addedQuantities u
                [Call.add 101 "alice" "sword" 5, Call.remove 102 103 "alice" 1 2,
                 Call.remove 104 105 "alice" 1 10, Call.remove 106 107 "alice" 1 1])[i]?
                = some q0
            ∧ it.Quantity = wrapInt64 (q0 - removedTotal s.2 u it.ID)
            ∧ (isInt64 (q0 - removedTotal s.2 u it.ID) →
                it.Quantity = q0 - removedTotal s.2 u it.ID) := by
  obtain ⟨s, hs, hall⟩ := quantity_eq_added_minus_removed id 100 3
    [Call.add 101 "alice" "sword" 5, Call.remove 102 103 "alice" 1 2,
     Call.remove 104 105 "alice" 1 10, Call.remove 106 107 "alice" 1 1]
    (by
      intro c hc
      simp only [List.mem_cons, List.mem_singleton, List.not_mem_nil, or_false] at hc
      rcases hc with rfl | rfl | rfl | rfl <;> decide)
  refine ⟨s, hs, ?_, ?_, hall⟩
  · have hs' : some s = _ := hs.symm
    simp only [runCalls] at hs'
    obtain rfl : s = _ := Option.some.inj hs'
    decide
  · have hs' : some s = _ := hs.symm
    simp only [runCalls] at hs'
    obtain rfl : s = _ := Option.some.inj hs'
    decide

/-- C5 fails as stated.  On `brimLedger` the call
`removeInventoryItem("alice", 1, -1)` is not refused; the item's quantity
becomes -9223372036854775808, not 9223372036854775807 - (-1), and the new block
has `Index` -9223372036854775808, not 9223372036854775807 + 1.  On
`nilLogLedger` the call `removeInventoryItem("alice", 1, 2)` is not refused
either, and ends in the fault of writing to the nil transaction map. -/
theorem removeInventoryItem_wraps_or_faults :
    ((removeInventoryItem id 200 201 brimLedger "alice" 1 (-1)).2 = RemoveOutcome.removed
      ∧ (removeInventoryItem id 200 201 brimLedger "alice" 1 (-1)).1.UserInventories "alice"
          = some [⟨1, "sword", -9223372036854775808⟩]
      ∧ (-9223372036854775808 : Int) ≠ 9223372036854775807 - (-1)
      ∧ ((removeInventoryItem id 200 201 brimLedger "alice" 1 (-1)).1.Chain.map Block.Index)
          = [9223372036854775807, -9223372036854775808]
      ∧ (-9223372036854775808 : Int) ≠ 9223372036854775807 + 1)
    ∧ (nilLogLedger.Chain ≠ []
      ∧ nilLogLedger.UserInventories "alice" = some [⟨1, "sword", 3⟩]
      ∧ (removeInventoryItem id 200 201 nilLogLedger "alice" 1 2).2
          = RemoveOutcome.nilMapWrite) :=
  ⟨⟨by decide, by decide, by decide, by decide, by decide⟩, by decide, by decide, by decide⟩

/-- C5 as amended: on a ledger with a non-empty chain and a non-nil transaction
map, a `removeInventoryItem` call that is not refused (the user has an
inventory, `it` at position `i` is its first item with the given id, and the
quantity does not exceed `it.Quantity`) runs to completion; it replaces that
item, in place, by the item with the same `ID` and `Name` and with `Quantity`
= `it.Quantity - quantity` in Go `int` arithmetic, changes no other item and no
other user's inventory, and extends the chain, old blocks unchanged, by exactly
one block `b` with `b.Index` = old tip's `Index + 1` in Go `int` arithmetic,
`b.PrevHash` = old tip's `Hash`, `b.Nonce = 0`, `b.Difficulty` = old tip's
`Difficulty`, `b.Hash = calculateHash b` and `b.InventoryTransactions` = old tip's
`InventoryTransactions` followed by the updated item.  The two results of Go
arithmetic are the mathematical ones whenever those fit a Go `int`. -/
theorem removeInventoryItem_effect (sha : String → String) (tBlock tTx : Int)
    (blockchain : Blockchain) (username : String) (id quantity : Int)
    (oldTip : Block) (inv : List InventoryItem) (i : Nat) (it : InventoryItem)
    (hchain : blockchain.Chain.getLast? = some oldTip)
    (htx : blockchain.UserTransactions ≠ none)
    (hinv : blockchain.UserInventories username = some inv)
    (hi : inv[i]? = some it) (hid : it.ID = id)
    (hfirst : ∀ (j : Nat) (x : InventoryItem), j < i → inv[j]? = some x → x.ID ≠ id)
    (hq : quantity ≤ it.Quantity) :
    (removeInventoryItem sha tBlock tTx blockchain username id quantity).2 = RemoveOutcome.removed
    ∧ (removeInventoryItem sha tBlock tTx blockchain username id quantity).1.UserInventories
          username
        = some (inv.set i ⟨it.ID, it.Name, wrapInt64 (it.Quantity - quantity)⟩)
    ∧ (isInt64 (it.Quantity - quantity) →
        wrapInt64 (it.Quantity - quantity) = it.Quantity - quantity)
    ∧ (∀ u, u ≠ username →
        (removeInventoryItem sha tBlock tTx blockchain username id quantity).1.UserInventories u
          = blockchain.UserInventories u)
    ∧ (∃ b : Block,
        (removeInventoryItem sha tBlock tTx blockchain username id quantity).1.Chain
          = blockchain.Chain ++ [b]
        ∧ b.Index = wrapInt64 (oldTip.Index + 1)
        ∧ (isInt64 (oldTip.Index + 1) → b.Index = oldTip.Index + 1)
        ∧ b.PrevHash = oldTip.Hash
        ∧ b.Nonce = 0
        ∧ b.Difficulty = oldTip.Difficulty
        ∧ b.Hash = calculateHash sha b
        ∧ b.InventoryTransactions
            = oldTip.InventoryTransactions
                ++ [⟨it.ID, it.Name, wrapInt64 (it.Quantity - quantity)⟩]) := by
  have hfind := (findItem_eq_some_iff id inv i it).mpr ⟨hi, hid, hfirst⟩
  have hq1 : ¬ quantity > it.Quantity := not_lt.mpr hq
  obtain ⟨m, hm⟩ : ∃ m, blockchain.UserTransactions = some m := by
    cases h : blockchain.UserTransactions with
    | none => exact absurd h htx
    | some m => exact ⟨m, rfl⟩
  refine ⟨?_, ?_, wrapInt64_of_isInt64 _, ?_, ?_⟩
  · simp [removeInventoryItem, hinv, hfind, hq1, hchain, hm]
  · simp [removeInventoryItem, hinv, hfind, hq1, hchain, hm, mapSet]
  · intro u hu
    simp [removeInventoryItem, hinv, hfind, hq1, hchain, hm, mapSet, hu]
  · refine ⟨createNewBlock sha tBlock
        { oldTip with
          InventoryTransactions := oldTip.InventoryTransactions
            ++ [⟨it.ID, it.Name, wrapInt64 (it.Quantity - quantity)⟩] }
        "Inventory updated" oldTip.Difficulty
        (oldTip.InventoryTransactions
          ++ [(⟨it.ID, it.Name, wrapInt64 (it.Quantity - quantity)⟩ : InventoryItem)]),
      ?_, rfl, fun h => wrapInt64_of_isInt64 _ h, rfl, rfl, rfl, rfl, rfl⟩
    simp [removeInventoryItem, hinv, hfind, hq1, hchain, hm]

/-- C5 as amended, at `aliceLedger`: removing 2 of alice's 3 swords completes,
leaves 1 sword and appends block 1 behind the genesis block. -/
theorem removeInventoryItem_effect_witness :
    (removeInventoryItem id 200 201 aliceLedger "alice" 1 2).2 = RemoveOutcome.removed
    ∧ (removeInventoryItem id 200 201 aliceLedger "alice" 1 2).1.UserInventories "alice"
        = some [⟨1, "sword", 1⟩]
    ∧ (removeInventoryItem id 200 201 aliceLedger "alice" 1 2).1.Chain.length = 2 :=
  have h := removeInventoryItem_effect id 200 201 aliceLedger "alice" 1 2
    (createGenesisBlock id 100 3) [⟨1, "sword", 3⟩] 0 ⟨1, "sword", 3⟩ (by decide)
    (by simp [aliceLedger]) (by decide) (by decide) (by decide)
    (fun j x hj => absurd hj (Nat.not_lt_zero j)) (by decide)
  ⟨h.1, h.2.1.trans (by decide),
    by obtain ⟨b, hb, _⟩ := h.2.2.2.2; rw [hb]; rfl⟩

/-- C6: `addInventoryItem` puts exactly one item, with `ID` = (length of the
user's inventory before the call) + 1 and the given name and quantity, at the
end of that user's inventory, puts exactly one `"add"` transaction carrying that
item at the end of that user's log, and leaves the chain and every other user's
inventory and log as they were.  On a genesis-only ledger,
`addInventoryItem "alice" "sword" 5` gives the inventory `[{1, "sword", 5}]`, a
chain of length 1 and a log with one `"add"` entry. -/
theorem addInventoryItem_effect (sha : String → String) (now : Int) (blockchain : Blockchain)
    (username name : String) (quantity tGenesis difficulty : Int) :
    (addInventoryItem now blockchain username name quantity).UserInventories username
        = some ((blockchain.UserInventories username).getD []
            ++ [⟨(((blockchain.UserInventories username).getD []).length : Int) + 1, name,
                  quantity⟩])
    ∧ (addInventoryItem now blockchain username name quantity).transactionsOf username
        = blockchain.transactionsOf username
            ++ [⟨username, now, "add",
                  ⟨(((blockchain.UserInventories username).getD []).length : Int) + 1, name,
                    quantity⟩⟩]
    ∧ (addInventoryItem now blockchain username name quantity).Chain = blockchain.Chain
    ∧ (∀ u, u ≠ username →
        (addInventoryItem now blockchain username name quantity).UserInventories u
            = blockchain.UserInventories u
        ∧ (addInventoryItem now blockchain username name quantity).transactionsOf u
            = blockchain.transactionsOf u)
    ∧ ((addInventoryItem now (freshLedger sha tGenesis difficulty) "alice" "sword" 5).UserInventories
            "alice" = some [⟨1, "sword", 5⟩]
      ∧ (addInventoryItem now (freshLedger sha tGenesis difficulty) "alice" "sword" 5).Chain.length
            = 1
      ∧ (addInventoryItem now (freshLedger sha tGenesis difficulty) "alice" "sword" 5).transactionsOf
            "alice" = [⟨"alice", now, "add", ⟨1, "sword", 5⟩⟩]) := by
  refine ⟨?_, ?_, rfl, ?_, ?_, rfl, ?_⟩
  · simp [addInventoryItem, mapSet]
  · simp [addInventoryItem, mapSet, Blockchain.transactionsOf]
  · intro u hu
    constructor
    · simp [addInventoryItem, mapSet, hu]
    · cases htx : blockchain.UserTransactions <;>
        simp [addInventoryItem, mapSet, hu, Blockchain.transactionsOf, htx]
  · simp [addInventoryItem, mapSet, freshLedger]
  · simp [addInventoryItem, mapSet, freshLedger, Blockchain.transactionsOf]

/-- C7 fails as stated: from a fresh genesis-only ledger, `addInventoryItem` with
quantity -5 stores an item of quantity -5; and after adding 9223372036854775807
swords, removing -1 of them is not refused and wraps the quantity around to
-9223372036854775808.  All arguments are Go `int` values. -/
theorem quantity_negative_after_console_calls :
    (Call.wellTyped (Call.add 101 "alice" "sword" (-5))
      ∧ ∃ s, runCalls id (freshLedger id 100 3) [Call.add 101 "alice" "sword" (-5)] = some s
        ∧ s.1.UserInventories "alice" = some [⟨1, "sword", -5⟩]
        ∧ ¬ AllQuantitiesNonneg s.1)
    ∧ (Call.wellTyped (Call.add 101 "alice" "sword" 9223372036854775807)
      ∧ Call.wellTyped (Call.remove 102 103 "alice" 1 (-1))
      ∧ ∃ s, runCalls id (freshLedger id 100 3)
            [Call.add 101 "alice" "sword" 9223372036854775807,
             Call.remove 102 103 "alice" 1 (-1)] = some s
        ∧ s.1.UserInventories "alice" = some [⟨1, "sword", -9223372036854775808⟩]
        ∧ ¬ AllQuantitiesNonneg s.1) := by
  refine ⟨⟨by decide, _, rfl, by decide, ?_⟩, ⟨by decide, by decide, _, rfl, by decide, ?_⟩⟩
  · intro h
    have := h "alice" [⟨1, "sword", -5⟩] (by decide) ⟨1, "sword", -5⟩ (by simp)
    simp at this
  · intro h
    have := h "alice" [⟨1, "sword", -9223372036854775808⟩] (by decide)
      ⟨1, "sword", -9223372036854775808⟩ (by simp)
    simp at this

/-- C7 as amended: when every call passes Go `int` arguments and a non-negative
quantity, every sequence of `addInventoryItem` and `removeInventoryItem` calls on
a fresh genesis-only ledger runs to completion and leaves every item of every
user's inventory with a quantity `≥ 0`. -/
theorem quantities_nonneg_of_nonneg_calls (sha : String → String) (tGenesis difficulty : Int)
    (calls : List Call) (h : ∀ c ∈ calls, c.wellTyped ∧ c.nonnegQuantity) :
    ∃ s, runCalls sha (freshLedger sha tGenesis difficulty) calls = some s
      ∧ AllQuantitiesNonneg s.1 := by
  obtain ⟨s, hs, _, hqr⟩ := runCalls_induction sha
    (fun _ s => FaultFree s.1 ∧ QuantitiesInRange s.1)
    (fun c => c.wellTyped ∧ c.nonnegQuantity)
    (fun _ s c hP hc => applyCall_quantitiesInRange sha s c hP hc)
    (freshLedger sha tGenesis difficulty)
    ⟨faultFree_freshLedger sha tGenesis difficulty, fun u inv hinv => by simp [freshLedger] at hinv⟩
    calls h
  exact ⟨s, hs, fun u inv hinv it hit => (hqr u inv hinv it hit).1⟩

/-- C7 as amended, at the calls "add 5 swords, remove 2 of them". -/
theorem quantities_nonneg_of_nonneg_calls_witness :
    ∃ s, runCalls id (freshLedger id 100 3)
          [Call.add 101 "alice" "sword" 5, Call.remove 102 103 "alice" 1 2] = some s
      ∧ AllQuantitiesNonneg s.1 :=
  quantities_nonneg_of_nonneg_calls id 100 3
    [Call.add 101 "alice" "sword" 5, Call.remove 102 103 "alice" 1 2]
    (by
      intro c hc
      simp only [List.mem_cons, List.mem_singleton, List.not_mem_nil, or_false] at hc
      rcases hc with rfl | rfl <;> exact ⟨by decide, by decide⟩)

/-- C8 fails on the code: after "add 5 swords, remove 2 of them" alice holds 3
swords, but the counter that `logTransactions` keeps for "sword" ends at 2,
because the `"remove"` transaction carries the item after the decrement
(quantity 3), not the amount removed. -/
theorem logTransactions_counter_differs :
    ∃ s, runCalls id (freshLedger id 100 3)
          [Call.add 101 "alice" "sword" 5, Call.remove 102 103 "alice" 1 2] = some s
      ∧ s.1.UserInventories "alice" = some [⟨1, "sword", 3⟩]
      ∧ s.1.transactionsOf "alice"
          = [⟨"alice", 101, "add", ⟨1, "sword", 5⟩⟩, ⟨"alice", 103, "remove", ⟨1, "sword", 3⟩⟩]
      ∧ logTransactions s.1 "alice" "sword" = 2 :=
  ⟨_, rfl, by decide, by decide, by decide⟩

/-- C9: `calculateHash` is not injective on the five hashed fields, whatever the
hash function: the blocks with (Index 1, Timestamp 23) and (Index 12,
Timestamp 3), other fields equal, have the same record and hence the same hash,
and so do the blocks with (PrevHash "ab", Data "c") and (PrevHash "a",
Data "bc"). -/
theorem calculateHash_not_injective (sha : String → String) (i t n k : Int) (p d h : String)
    (inv : List InventoryItem) :
    (hashedFields ⟨1, 23, p, d, n, k, h, inv⟩ ≠ hashedFields ⟨12, 3, p, d, n, k, h, inv⟩
      ∧ hashRecord ⟨1, 23, p, d, n, k, h, inv⟩ = hashRecord ⟨12, 3, p, d, n, k, h, inv⟩
      ∧ calculateHash sha ⟨1, 23, p, d, n, k, h, inv⟩
          = calculateHash sha ⟨12, 3, p, d, n, k, h, inv⟩)
    ∧ (hashedFields ⟨i, t, "ab", "c", n, k, h, inv⟩ ≠ hashedFields ⟨i, t, "a", "bc", n, k, h, inv⟩
      ∧ hashRecord ⟨i, t, "ab", "c", n, k, h, inv⟩ = hashRecord ⟨i, t, "a", "bc", n, k, h, inv⟩
      ∧ calculateHash sha ⟨i, t, "ab", "c", n, k, h, inv⟩
          = calculateHash sha ⟨i, t, "a", "bc", n, k, h, inv⟩) := by
  have e1 : hashRecord ⟨1, 23, p, d, n, k, h, inv⟩ = hashRecord ⟨12, 3, p, d, n, k, h, inv⟩ := by
    have : toString (1 : Int) ++ toString (23 : Int) = toString (12 : Int) ++ toString (3 : Int) := by
      decide
    simp only [hashRecord, this]
  have e2 : hashRecord ⟨i, t, "ab", "c", n, k, h, inv⟩
      = hashRecord ⟨i, t, "a", "bc", n, k, h, inv⟩ := by
    have : ∀ x : String, x ++ "ab" ++ "c" = x ++ "a" ++ "bc" := by
      intro x
      rw [String.append_assoc, String.append_assoc]
      rfl
    simp only [hashRecord, this]
  refine ⟨⟨?_, e1, congrArg sha e1⟩, ⟨?_, e2, congrArg sha e2⟩⟩
  · simp [hashedFields]
  · simp [hashedFields]

/-- C10: the outcome of `auditBlockchain` depends only on `Index`, `Timestamp`,
`PrevHash`, `Data`, `Nonce` of every block and on the stored `Hash` of the blocks
after the first: two ledgers whose chains agree on these (and may differ in every
`Difficulty`, every `InventoryTransactions`, the first block's `Hash`, and in all
inventories and logs) get the same outcome. -/
theorem audit_depends_only_on_hashed_fields (sha : String → String)
    (first first1 : Block) (rest rest1 : List Block)
    (inventories inventories1 : String → Option (List InventoryItem))
    (transactions transactions1 : Option (String → List Transaction))
    (hfirst : hashedFields first = hashedFields first1)
    (hrest : List.Forall₂ (fun b c => hashedFields b = hashedFields c ∧ b.Hash = c.Hash)
      rest rest1) :
    auditBlockchain sha ⟨first :: rest, inventories, transactions⟩
      = auditBlockchain sha ⟨first1 :: rest1, inventories1, transactions1⟩ :=
  auditFrom_congr sha rest rest1 hrest first first1 hfirst

/-- C10 at a two-block chain: changing the first block's `Hash`, both
`Difficulty` values and the second block's `InventoryTransactions` keeps the
outcome. -/
theorem audit_depends_only_on_hashed_fields_witness :
    auditBlockchain id
        ⟨[createGenesisBlock id 100 3, sampleBlock], fun _ => none, none⟩
      = auditBlockchain id
        ⟨[{ createGenesisBlock id 100 3 with Hash := "forged", Difficulty := 9 },
          { sampleBlock with Difficulty := 0, InventoryTransactions := [⟨1, "sword", 5⟩] }],
         fun _ => none, none⟩ :=
  audit_depends_only_on_hashed_fields id _ _ _ _ _ _ _ _ rfl
    (List.Forall₂.cons ⟨rfl, rfl⟩ List.Forall₂.nil)

end InventoryChain
